import Mathlib

/-!
# Verification of the pbs_gestor log-ingestion core

A shallow embedding, in Lean 4, of the pbs_gestor repository's core:

* `process_log_line` (src/pbs_loghandler.py): parsing one accounting-log line
  into three dictionaries;
* `logLineParser` / `event_type` (gestor.py): building the canonical job
  attribute mapping from the parsed triple;
* `_merge_by_query`-based upserts of job rows, job-resource rows and
  checkpoint rows (model/orm_lib.py, reporting_database_connect.py);
* `lastscan`, `get_first_log`, `str_to_date`, `date_range`, `parse_input`
  and the per-line loop of `main` (gestor.py).

Python dictionaries are modelled as association lists with Python's
insert-or-update-in-place semantics; tables are modelled as lists of rows;
autoincrement primary keys are modelled by a fresh-index function.
-/

namespace PbsGestor

/-! ## Python dictionaries as association lists -/

/-- Python `d[k]` lookup (first binding wins; our dicts keep keys unique). -/
def dlookup {α : Type} : List (String × α) → String → Option α
  | [], _ => none
  | (k', v) :: rest, k => if k' = k then some v else dlookup rest k

/-- Python `d[k] = v`: update the existing binding in place, else append. -/
def dictInsert {α : Type} : List (String × α) → String → α → List (String × α)
  | [], k, v => [(k, v)]
  | (k', v') :: rest, k, v =>
    if k' = k then (k, v) :: rest else (k', v') :: dictInsert rest k v

theorem dlookup_dictInsert {α : Type} (d : List (String × α)) (k k' : String) (v : α) :
    dlookup (dictInsert d k v) k' = if k = k' then some v else dlookup d k' := by
  induction d with
  | nil => simp [dictInsert, dlookup]
  | cons p rest ih =>
    obtain ⟨k₀, v₀⟩ := p
    by_cases h : k₀ = k
    · subst h
      by_cases h' : k₀ = k'
      · subst h'
        simp [dictInsert, dlookup]
      · simp [dictInsert, dlookup, h', Ne.symm h']
    · by_cases h' : k₀ = k'
      · subst h'
        simp [dictInsert, dlookup, h, Ne.symm h]
      · simp [dictInsert, dlookup, h, h', ih]

/-- Boolean list-prefix test (structurally recursive, kernel-reducible). -/
def startsWithB : List Char → List Char → Bool
  | [], _ => true
  | _ :: _, [] => false
  | a :: as, b :: bs => (a = b) && startsWithB as bs

/-- Boolean list-infix test (structurally recursive, kernel-reducible). -/
def hasSubB (pat : List Char) : List Char → Bool
  | [] => startsWithB pat []
  | b :: bs => startsWithB pat (b :: bs) || hasSubB pat bs

/-- Python `'sub' in s` substring test. -/
def strContains (s sub : String) : Bool :=
  hasSubB sub.data s.data

/-- Python `s.split(c)` for a one-character separator: split at every
occurrence, keeping empty pieces (`"".split(c)` is `[""]`). Implemented by
structural recursion over the character list so that it reduces in the
kernel, unlike `String.splitOn`. -/
def pySplitGo (c : Char) : List Char → List Char → List String
  | [], acc => [String.mk acc.reverse]
  | x :: xs, acc =>
    if x = c then String.mk acc.reverse :: pySplitGo c xs [] else pySplitGo c xs (x :: acc)

/-- Python `s.split(c)` (single-character separator). -/
def pySplit (s : String) (c : Char) : List String :=
  pySplitGo c s.data []

/-- Python `s.split(c, 1)`: split on the first occurrence only; the result
has one element (no occurrence) or two. -/
def pySplitFirst (s : String) (c : Char) : List String :=
  pySplitFirstGo c s.data [] where
  pySplitFirstGo (c : Char) : List Char → List Char → List String
    | [], acc => [String.mk acc.reverse]
    | x :: xs, acc =>
      if x = c then [String.mk acc.reverse, String.mk xs] else pySplitFirstGo c xs (x :: acc)

/-- Python `s.strip()`: drop leading and trailing whitespace. -/
def pyStrip (s : String) : String :=
  String.mk (((s.data.dropWhile Char.isWhitespace).reverse.dropWhile Char.isWhitespace).reverse)

/-! ## Values stored in the job-attribute mapping

The attribute dictionary built by `logLineParser` holds Python values of
several shapes: `None`, strings, the integer priority, `+`-split host lists
and the nested `resources` dictionary (whose values are all strings). -/

inductive PyVal : Type where
  | none : PyVal
  | str : String → PyVal
  | int : Int → PyVal
  | strList : List String → PyVal
  | dict : List (String × String) → PyVal
deriving DecidableEq, Repr

/-- An attribute mapping (`attrs` in gestor.py). -/
abbrev AttrMap := List (String × PyVal)

/-! ## `event_type` (gestor.py lines 149-169) -/

/-- `event_type(parsed_event)` from gestor.py: returns `"UNKNOWN"` when either
of the keys `ji_start_time`, `ji_end_time` is absent from the mapping, else
classifies by the two values being `None` or not. -/
def event_type (parsed_event : AttrMap) : String :=
  match dlookup parsed_event "ji_start_time", dlookup parsed_event "ji_end_time" with
  | some s, some e =>
    if s ≠ PyVal.none ∧ e ≠ PyVal.none then "END"
    else if s ≠ PyVal.none ∧ e = PyVal.none then "START"
    else if s = PyVal.none ∧ e = PyVal.none then "QUEUED"
    else "UNKNOWN"
  | _, _ => "UNKNOWN"

/-- C4: For every attribute mapping, `event_type` is determined solely by the
start/end timestamp fields: both present non-null gives `"END"`; start
non-null and end null gives `"START"`; both null gives `"QUEUED"`; both
fields entirely absent from the mapping gives `"UNKNOWN"`. -/
theorem event_type_classification (m : AttrMap) :
    (∀ s e, dlookup m "ji_start_time" = some s → dlookup m "ji_end_time" = some e →
      s ≠ PyVal.none → e ≠ PyVal.none → event_type m = "END") ∧
    (∀ s, dlookup m "ji_start_time" = some s →
      dlookup m "ji_end_time" = some PyVal.none →
      s ≠ PyVal.none → event_type m = "START") ∧
    (dlookup m "ji_start_time" = some PyVal.none →
      dlookup m "ji_end_time" = some PyVal.none → event_type m = "QUEUED") ∧
    (dlookup m "ji_start_time" = none → dlookup m "ji_end_time" = none →
      event_type m = "UNKNOWN") := by
  refine ⟨?_, ?_, ?_, ?_⟩
  · intro s e hs he hsn hen
    simp [event_type, hs, he, hsn, hen]
  · intro s hs he hsn
    simp [event_type, hs, he, hsn]
  · intro hs he
    simp [event_type, hs, he]
  · intro hs he
    simp [event_type, hs, he]

/-- Witness for C4: the four classification cases evaluated on concrete
mappings. -/
theorem event_type_classification_witness :
    event_type [("ji_start_time", PyVal.str "1"), ("ji_end_time", PyVal.str "2")] = "END" ∧
    event_type [("ji_start_time", PyVal.str "1"), ("ji_end_time", PyVal.none)] = "START" ∧
    event_type [("ji_start_time", PyVal.none), ("ji_end_time", PyVal.none)] = "QUEUED" ∧
    event_type [("ji_queue", PyVal.str "workq")] = "UNKNOWN" := by
  refine ⟨?_, ?_, ?_, ?_⟩
  · exact (event_type_classification _).1 (PyVal.str "1") (PyVal.str "2")
      (by decide) (by decide) (by decide) (by decide)
  · exact (event_type_classification _).2.1 (PyVal.str "1") (by decide) (by decide) (by decide)
  · exact (event_type_classification _).2.2.1 (by decide) (by decide)
  · exact (event_type_classification _).2.2.2 (by decide) (by decide)

/-- C10: an end event whose start is unknown — `ji_start_time` present with
value null while `ji_end_time` is present and non-null — is classified
`"UNKNOWN"` even though both fields are present. -/
theorem event_type_null_start_nonnull_end (m : AttrMap) (e : PyVal)
    (hs : dlookup m "ji_start_time" = some PyVal.none)
    (he : dlookup m "ji_end_time" = some e) (hen : e ≠ PyVal.none) :
    event_type m = "UNKNOWN" := by
  simp [event_type, hs, he, hen, Ne.symm hen]

/-- Witness for C10 at a concrete mapping. -/
theorem event_type_null_start_nonnull_end_witness :
    event_type [("ji_start_time", PyVal.none), ("ji_end_time", PyVal.str "2")] = "UNKNOWN" :=
  event_type_null_start_nonnull_end _ (PyVal.str "2") (by decide) (by decide) (by decide)

/-! ## `process_log_line` (pbs_loghandler.py lines 243-294) -/

/-- A dictionary with string keys and string values (`log_dict`,
`rsrc_requested`, `rsrc_used` in pbs_loghandler.py). -/
abbrev StrDict := List (String × String)

/-- `PBS_JOB_VARS` from pbs_loghandler.py: per-state whitelists of job
variables, keyed by the job-state code. -/
def PBS_JOB_VARS : List (String × List String) :=
  [("E", ["account", "accounting_id", "alt_id", "ctime",
          "eligible_time", "end", "etime", "exec_host", "exec_vnode",
          "Exit_status", "group", "jobname", "project", "qtime",
          "queue", "run_count", "session", "start", "user"]),
   ("Q", ["queue"]),
   ("S", ["accounting_id", "ctime", "etime", "exec_host", "exec_vnode",
          "group", "jobname", "project", "qtime", "queue", "session",
          "start", "user"])]

/-- The state threaded through the `for var in job_vars_list` loop:
`(log_dict, rsrc_requested, rsrc_used)`. -/
abbrev ParsedTriple := StrDict × StrDict × StrDict

/-- The body of the `for var in job_vars_list` loop of `process_log_line`:
each token is split as `key=value` on the first `=`; a token with no `=`
raises `LogLineError`; a key in the state's whitelist goes into `log_dict`
(value stripped); else a key containing `Resource_List` (resp.
`resources_used`) has its part after the first `.` used as a requested
(resp. used) resource name — raising `LogLineError` via `IndexError` when
the key has no `.`; any other key is logged and skipped. -/
def processVars (wl : List String) (st : ParsedTriple) :
    List String → Except String ParsedTriple
  | [] => .ok st
  | tok :: rest =>
    match pySplitFirst tok '=' with
    | [rsrc_type, val] =>
      if rsrc_type ∈ wl then
        processVars wl ⟨dictInsert st.1 rsrc_type (pyStrip val), st.2.1, st.2.2⟩ rest
      else if strContains rsrc_type "Resource_List" then
        match (pySplit rsrc_type '.').get? 1 with
        | some args => processVars wl ⟨st.1, dictInsert st.2.1 args val, st.2.2⟩ rest
        | none => .error ("Problem with resource " ++ rsrc_type)
      else if strContains rsrc_type "resources_used" then
        match (pySplit rsrc_type '.').get? 1 with
        | some args => processVars wl ⟨st.1, st.2.1, dictInsert st.2.2 args val⟩ rest
        | none => .error ("Problem with resource " ++ rsrc_type)
      else
        processVars wl st rest
    | _ => .error ("Problem with resource=value given in log line " ++ tok)

/-- `process_log_line(log_msg)` from pbs_loghandler.py: split the line on
`;` into exactly four pieces (else `LogLineError`); check the job state is a
key of `PBS_JOB_VARS` (else `LogLineError`); then process the space-separated
`key=value` tokens of the fourth piece. -/
def process_log_line (log_msg : String) : Except String ParsedTriple :=
  match pySplit log_msg ';' with
  | [log_date, job_state, job_id, log_str] =>
    match dlookup PBS_JOB_VARS job_state with
    | none => .error ("PBS job states: Q, S, E; not " ++ job_state)
    | some wl =>
      let log_dict : StrDict :=
        dictInsert (dictInsert (dictInsert [] "log_date" log_date)
          "job_state" job_state) "job_id" job_id
      processVars wl ⟨log_dict, [], []⟩ (pySplit log_str ' ')
  | _ => .error ("Log message should have exactly four pieces separated by ;: " ++ log_msg)

/-- Whether an `Except` computation succeeded. -/
def exceptOk {ε α : Type} : Except ε α → Bool
  | .ok _ => true
  | .error _ => false

/-- The failure condition exactly as claim C3 words it: not exactly four
`;`-separated fields, or the second field not one of `Q`, `S`, `E`, or some
space-separated token of the fourth field containing no `=`. -/
def claimedFailCondition (line : String) : Bool :=
  let parts := pySplit line ';'
  parts.length ≠ 4 ||
  (match parts.get? 1 with
   | some s => !(s = "Q" || s = "S" || s = "E")
   | none => true) ||
  (match parts.get? 3 with
   | some f => (pySplit f ' ').any (fun tok => !(tok.data.contains '='))
   | none => true)

/-- C3 counterexample: the line `11/12/2018 13:50:10;Q;0.cylc-vm;Resource_List=5`
has exactly four `;`-fields, job state `Q`, and its only fourth-field token
contains an `=`, so it satisfies none of the claim's three failure
conditions — yet `process_log_line` raises `LogLineError` (the key
`Resource_List` contains `Resource_List` but has no `.`, so `split('.')[1]`
raises `IndexError`, converted to `LogLineError`). -/
theorem process_log_line_c3_counterexample :
    exceptOk (process_log_line "11/12/2018 13:50:10;Q;0.cylc-vm;Resource_List=5") = false ∧
    claimedFailCondition "11/12/2018 13:50:10;Q;0.cylc-vm;Resource_List=5" = false := by
  constructor
  · decide
  · decide

/-- A fourth-field token on which the `process_log_line` token loop raises
`LogLineError`: either it has no `=`, or its key is outside the state's
whitelist, contains `Resource_List` or `resources_used` as a substring, and
has no `.` (so `split('.')[1]` raises `IndexError`). -/
def bad_token (wl : List String) (tok : String) : Bool :=
  match pySplitFirst tok '=' with
  | [rsrc_type, _val] =>
    if rsrc_type ∈ wl then false
    else if strContains rsrc_type "Resource_List" then ((pySplit rsrc_type '.').get? 1).isNone
    else if strContains rsrc_type "resources_used" then ((pySplit rsrc_type '.').get? 1).isNone
    else false
  | _ => true

theorem exceptOk_processVars (wl : List String) (toks : List String) :
    ∀ st, exceptOk (processVars wl st toks) = toks.all (fun t => !bad_token wl t) := by
  induction toks with
  | nil => intro st; simp [processVars, exceptOk]
  | cons tok rest ih =>
    intro st
    rcases hsplit : pySplitFirst tok '=' with _ | ⟨rt, _ | ⟨v, _ | ⟨x, xs⟩⟩⟩
    · simp [processVars, bad_token, hsplit, exceptOk]
    · simp [processVars, bad_token, hsplit, exceptOk]
    · by_cases hwl : rt ∈ wl
      · simp [processVars, bad_token, hsplit, hwl, ih]
      · by_cases hRL : strContains rt "Resource_List"
        · cases hdot : (pySplit rt '.')[1]? with
          | some args => simp [processVars, bad_token, hsplit, hwl, hRL, hdot, ih, List.get?_eq_getElem?]
          | none => simp [processVars, bad_token, hsplit, hwl, hRL, hdot, exceptOk, List.get?_eq_getElem?]
        · by_cases hru : strContains rt "resources_used"
          · cases hdot : (pySplit rt '.')[1]? with
            | some args => simp [processVars, bad_token, hsplit, hwl, hRL, hru, hdot, ih, List.get?_eq_getElem?]
            | none => simp [processVars, bad_token, hsplit, hwl, hRL, hru, hdot, exceptOk, List.get?_eq_getElem?]
          · simp [processVars, bad_token, hsplit, hwl, hRL, hru, ih]
    · simp [processVars, bad_token, hsplit, exceptOk]

/-- C3 amended: `process_log_line` fails with `LogLineError` exactly when the
line does not split on `;` into exactly four fields, or the second field is
not a key of `PBS_JOB_VARS` (one of `Q`, `S`, `E`), or some space-separated
token of the fourth field is a `bad_token` for the state's whitelist: it
contains no `=`, or its key is un-whitelisted, contains `Resource_List` or
`resources_used` as a substring and has no `.`. -/
theorem process_log_line_fails_iff (line : String) :
    exceptOk (process_log_line line) = false ↔
      ((pySplit line ';').length ≠ 4 ∨
       (∃ log_date job_state job_id log_str,
         pySplit line ';' = [log_date, job_state, job_id, log_str] ∧
         (dlookup PBS_JOB_VARS job_state = none ∨
          ∃ wl, dlookup PBS_JOB_VARS job_state = some wl ∧
            ∃ tok ∈ pySplit log_str ' ', bad_token wl tok = true))) := by
  rcases hp : pySplit line ';' with _ | ⟨a, _ | ⟨b, _ | ⟨c, _ | ⟨d, _ | ⟨e, rest⟩⟩⟩⟩⟩
  · refine iff_of_true (by simp [process_log_line, hp, exceptOk]) (Or.inl (by simp [hp]))
  · refine iff_of_true (by simp [process_log_line, hp, exceptOk]) (Or.inl (by simp [hp]))
  · refine iff_of_true (by simp [process_log_line, hp, exceptOk]) (Or.inl (by simp [hp]))
  · refine iff_of_true (by simp [process_log_line, hp, exceptOk]) (Or.inl (by simp [hp]))
  · cases hdl : dlookup PBS_JOB_VARS b with
    | none =>
      refine iff_of_true (by simp [process_log_line, hp, hdl, exceptOk])
        (Or.inr ⟨a, b, c, d, rfl, Or.inl hdl⟩)
    | some wl =>
      have hmain : exceptOk (process_log_line line) =
          (pySplit d ' ').all (fun t => !bad_token wl t) := by
        simp [process_log_line, hp, hdl, exceptOk_processVars]
      rw [hmain]
      constructor
      · intro hall
        refine Or.inr ⟨a, b, c, d, rfl, Or.inr ⟨wl, hdl, ?_⟩⟩
        have hex : ∃ tok ∈ pySplit d ' ', ¬ (!bad_token wl tok) = true := by
          simpa [List.all_eq_true] using hall
        rcases hex with ⟨tok, htok, hbad⟩
        exact ⟨tok, htok, by simpa using hbad⟩
      · intro h
        rcases h with h4 | ⟨a', b', c', d', heq, hbad⟩
        · simp at h4
        · obtain ⟨rfl, rfl, rfl, rfl⟩ : a = a' ∧ b = b' ∧ c = c' ∧ d = d' := by
            simpa using heq
          rcases hbad with hnone | ⟨wl', hwl', tok, htok, hbadtok⟩
          · rw [hdl] at hnone; cases hnone
          · rw [hdl] at hwl'
            obtain rfl : wl = wl' := by injection hwl'
            rcases hb : (pySplit d ' ').all (fun t => !bad_token wl t) with _ | _
            · rfl
            · rw [List.all_eq_true] at hb
              have := hb tok htok
              rw [hbadtok] at this
              cases this
  · refine iff_of_true (by simp [process_log_line, hp, exceptOk]) (Or.inl (by simp [hp]))

/-! ## `logLineParser` (gestor.py lines 79-146) -/

/-- The fixed attribute list iterated by `logLineParser`: target key,
source key in `log_dict`, and the default used when the source key is
absent (`None` when no third element is given). The values of `log_dict`
are strings produced by `process_log_line`, so the `is not None` guard of
the source is vacuously true for present keys. -/
def job_attr_list : List (String × String × Option String) :=
  [("ji_exitstat", "Exit_status", Option.none), ("ji_cr_time", "ctime", Option.none),
   ("ji_quetime", "qtime", Option.none), ("ji_eligible_time", "etime", Option.none),
   ("ji_start_time", "start", Option.none), ("ji_end_time", "end", Option.none),
   ("ji_runcount", "run_count", Option.none), ("ji_sessionid", "session", Option.none),
   ("ji_jobname", "jobname", some ""), ("ji_user", "user", some ""),
   ("ji_group", "group", some ""), ("ji_project", "project", some ""),
   ("ji_queue", "queue", some ""), ("ji_jobid", "job_id", some "")]

/-- Extract the string stored in an attribute (used for
`attrs["ji_jobid"].split(".")`, whose value is always a string). -/
def strOf : Option PyVal → String
  | some (PyVal.str s) => s
  | _ => ""

/-- Apply a function to the nested dictionary of a `PyVal.dict` value. -/
def pyMapDict (f : StrDict → StrDict) : PyVal → PyVal
  | PyVal.dict d => PyVal.dict (f d)
  | v => v

/-- Python's in-place mutation `attrs["resources"][k] = v`, rendered
functionally: rewrite the value stored under the `resources` key. -/
def mapResources (attrs : AttrMap) (f : StrDict → StrDict) : AttrMap :=
  attrs.map (fun p => if p.1 = "resources" then (p.1, pyMapDict f p.2) else p)

/-- One iteration of the `for rsrc_l in rsrc_requested` loop: skip a pair
whose name and value are both empty, else store under `l_` + name. -/
def reqStep (res : StrDict) (p : String × String) : StrDict :=
  if p.1 = "" ∧ p.2 = "" then res else dictInsert res ("l_" ++ p.1) p.2

/-- One iteration of the `for rsrc_u in rsrc_used` loop: skip a pair whose
name and value are both empty; a name containing `exec_host` (substring
test, as in the source) sets `ji_exechost` to the `+`-split value; else a
name containing `exec_vnode` sets `ji_execvnode`; all other pairs are
stored in the resource mapping under `u_` + name. -/
def usedStep (attrs : AttrMap) (p : String × String) : AttrMap :=
  if p.1 = "" ∧ p.2 = "" then attrs
  else if strContains p.1 "exec_host" then
    dictInsert attrs "ji_exechost" (PyVal.strList (pySplit p.2 '+'))
  else if strContains p.1 "exec_vnode" then
    dictInsert attrs "ji_execvnode" (PyVal.strList (pySplit p.2 '+'))
  else mapResources attrs (fun res => dictInsert res ("u_" ++ p.1) p.2)

/-- `logLineParser(job)` from gestor.py: build the attribute mapping from
the parsed triple `(log_dict, rsrc_requested, rsrc_used)`. -/
def logLineParser (job : ParsedTriple) : AttrMap :=
  let (log_dict, rsrc_requested, rsrc_used) := job
  let attrs : AttrMap := [("ji_sv_name", PyVal.str "")]
  let attrs := job_attr_list.foldl (fun attrs t =>
    match dlookup log_dict t.2.1 with
    | some v => dictInsert attrs t.1 (PyVal.str v)
    | Option.none =>
      dictInsert attrs t.1
        (match t.2.2 with | some dflt => PyVal.str dflt | Option.none => PyVal.none)) attrs
  let server_name := pySplit (strOf (dlookup attrs "ji_jobid")) '.'
  let attrs := dictInsert attrs "ji_sv_name"
    (PyVal.str (if server_name.length < 2 then "" else server_name.getD 1 ""))
  let attrs := dictInsert attrs "resources"
    (PyVal.dict (rsrc_requested.foldl reqStep []))
  let attrs := dictInsert attrs "ji_exechost" PyVal.none
  let attrs := dictInsert attrs "ji_execvnode" PyVal.none
  let attrs := rsrc_used.foldl usedStep attrs
  let attrs := dictInsert attrs "ji_priority" (PyVal.int 1)
  dictInsert attrs "event_type" (PyVal.str (event_type attrs))

/-- The `resources` mapping of a built attribute dictionary. -/
def resourcesOf (attrs : AttrMap) : StrDict :=
  match dlookup attrs "resources" with
  | some (PyVal.dict d) => d
  | _ => []

/-- A concrete parsed event for the C5 counterexample: one requested pair
`("", "")` and one used pair `("foo_exec_host", "a+b")`. -/
def c5_job : ParsedTriple :=
  ([("log_date", "11/12/2018 13:50:10"), ("job_state", "E"), ("job_id", "1.srv")],
   [("", "")],
   [("foo_exec_host", "a+b")])

/-- C5 counterexample: at `c5_job` the claim fails twice. The requested pair
`("", "")` produces no `l_` key (the loop skips pairs with empty name and
value), and the used pair `("foo_exec_host", "a+b")` — whose name is
neither `exec_host` nor `exec_vnode` — produces no `u_foo_exec_host` key,
because the source tests `"exec_host" in rsrc_name` as a substring and
routes the pair to `ji_exechost`. -/
theorem logLineParser_c5_counterexample :
    ("", "") ∈ c5_job.2.1 ∧
    ("foo_exec_host", "a+b") ∈ c5_job.2.2 ∧
    "foo_exec_host" ≠ "exec_host" ∧ "foo_exec_host" ≠ "exec_vnode" ∧
    dlookup (resourcesOf (logLineParser c5_job)) ("l_" ++ "") = Option.none ∧
    dlookup (resourcesOf (logLineParser c5_job)) ("u_" ++ "foo_exec_host") = Option.none ∧
    dlookup (logLineParser c5_job) "ji_exechost" =
      some (PyVal.strList ["a", "b"]) := by
  decide

/-- The effect of one used-resource pair on the nested resource mapping
alone: pairs that are skipped or routed to `ji_exechost`/`ji_execvnode`
leave it unchanged; the rest insert under `u_` + name. -/
def uResStep (res : StrDict) (p : String × String) : StrDict :=
  if p.1 = "" ∧ p.2 = "" then res
  else if strContains p.1 "exec_host" then res
  else if strContains p.1 "exec_vnode" then res
  else dictInsert res ("u_" ++ p.1) p.2

/-- The last element of a list satisfying a predicate. -/
def lastMatch {α : Type} (f : α → Bool) : List α → Option α
  | [] => Option.none
  | a :: rest =>
    match lastMatch f rest with
    | some b => some b
    | Option.none => if f a then some a else Option.none

/-- Used pairs routed to `ji_exechost`. -/
def execHostP (p : String × String) : Bool :=
  !decide (p.1 = "" ∧ p.2 = "") && strContains p.1 "exec_host"

/-- Used pairs routed to `ji_execvnode`. -/
def execVnodeP (p : String × String) : Bool :=
  !decide (p.1 = "" ∧ p.2 = "") && !strContains p.1 "exec_host" &&
    strContains p.1 "exec_vnode"

theorem mapResources_cons (f : StrDict → StrDict) (k₀ : String) (v₀ : PyVal)
    (rest : AttrMap) :
    mapResources ((k₀, v₀) :: rest) f =
      (if k₀ = "resources" then (k₀, pyMapDict f v₀) else (k₀, v₀)) :: mapResources rest f := by
  simp only [mapResources, List.map_cons]

theorem mapResources_dlookup_resources (attrs : AttrMap) (f : StrDict → StrDict) :
    dlookup (mapResources attrs f) "resources" =
      (dlookup attrs "resources").map (pyMapDict f) := by
  induction attrs with
  | nil => simp [mapResources, dlookup]
  | cons p rest ih =>
    obtain ⟨k₀, v₀⟩ := p
    rw [mapResources_cons]
    by_cases h₀ : k₀ = "resources"
    · subst h₀
      rw [if_pos rfl]
      simp [dlookup]
    · rw [if_neg h₀]
      simp only [dlookup, if_neg h₀]
      exact ih

theorem mapResources_dlookup_ne (attrs : AttrMap) (f : StrDict → StrDict) (k : String)
    (hk : k ≠ "resources") :
    dlookup (mapResources attrs f) k = dlookup attrs k := by
  induction attrs with
  | nil => simp [mapResources, dlookup]
  | cons p rest ih =>
    obtain ⟨k₀, v₀⟩ := p
    rw [mapResources_cons]
    by_cases h₀ : k₀ = "resources"
    · subst h₀
      rw [if_pos rfl]
      have hne : ¬("resources" = k) := fun h => hk h.symm
      simp only [dlookup, if_neg hne]
      exact ih
    · rw [if_neg h₀]
      by_cases h₀k : k₀ = k
      · subst h₀k
        simp [dlookup]
      · simp only [dlookup, if_neg h₀k]
        exact ih

theorem usedFold_resources (used : List (String × String)) :
    ∀ (attrs : AttrMap) (d : StrDict), dlookup attrs "resources" = some (PyVal.dict d) →
      dlookup (used.foldl usedStep attrs) "resources" =
        some (PyVal.dict (used.foldl uResStep d)) := by
  induction used with
  | nil => intro attrs d h; simpa using h
  | cons p rest ih =>
    intro attrs d h
    rw [List.foldl_cons, List.foldl_cons]
    by_cases hsk : (p.1 = "" ∧ p.2 = "")
    · rw [show usedStep attrs p = attrs from by simp [usedStep, hsk],
          show uResStep d p = d from by simp [uResStep, hsk]]
      exact ih attrs d h
    · cases hEH : strContains p.1 "exec_host" with
      | true =>
        rw [show usedStep attrs p =
              dictInsert attrs "ji_exechost" (PyVal.strList (pySplit p.2 '+')) from by
            simp [usedStep, hsk, hEH],
          show uResStep d p = d from by simp [uResStep, hsk, hEH]]
        refine ih _ d ?_
        rw [dlookup_dictInsert]
        simpa using h
      | false =>
        cases hEV : strContains p.1 "exec_vnode" with
        | true =>
          rw [show usedStep attrs p =
                dictInsert attrs "ji_execvnode" (PyVal.strList (pySplit p.2 '+')) from by
              simp [usedStep, hsk, hEH, hEV],
            show uResStep d p = d from by simp [uResStep, hsk, hEH, hEV]]
          refine ih _ d ?_
          rw [dlookup_dictInsert]
          simpa using h
        | false =>
          rw [show usedStep attrs p =
                mapResources attrs (fun res => dictInsert res ("u_" ++ p.1) p.2) from by
              simp [usedStep, hsk, hEH, hEV],
            show uResStep d p = dictInsert d ("u_" ++ p.1) p.2 from by
              simp [uResStep, hsk, hEH, hEV]]
          refine ih _ _ ?_
          rw [mapResources_dlookup_resources, h]
          simp [pyMapDict]

theorem usedFold_exechost (used : List (String × String)) :
    ∀ attrs : AttrMap,
      dlookup (used.foldl usedStep attrs) "ji_exechost" =
        match lastMatch execHostP used with
        | some p => some (PyVal.strList (pySplit p.2 '+'))
        | Option.none => dlookup attrs "ji_exechost" := by
  induction used with
  | nil => intro attrs; simp [lastMatch]
  | cons p rest ih =>
    intro attrs
    rw [List.foldl_cons]
    simp only [lastMatch]
    by_cases hsk : (p.1 = "" ∧ p.2 = "")
    · rw [show usedStep attrs p = attrs from by simp [usedStep, hsk], ih attrs]
      cases lastMatch execHostP rest with
      | some b => rfl
      | none => simp [execHostP, hsk]
    · cases hEH : strContains p.1 "exec_host" with
      | true =>
        rw [show usedStep attrs p =
              dictInsert attrs "ji_exechost" (PyVal.strList (pySplit p.2 '+')) from by
            simp [usedStep, hsk, hEH],
          ih]
        cases lastMatch execHostP rest with
        | some b => rfl
        | none =>
          rw [dlookup_dictInsert]
          simp [execHostP, hsk, hEH]
      | false =>
        cases hEV : strContains p.1 "exec_vnode" with
        | true =>
          rw [show usedStep attrs p =
                dictInsert attrs "ji_execvnode" (PyVal.strList (pySplit p.2 '+')) from by
              simp [usedStep, hsk, hEH, hEV],
            ih]
          cases lastMatch execHostP rest with
          | some b => rfl
          | none =>
            rw [dlookup_dictInsert]
            simp [execHostP, hsk, hEH]
        | false =>
          rw [show usedStep attrs p =
                mapResources attrs (fun res => dictInsert res ("u_" ++ p.1) p.2) from by
              simp [usedStep, hsk, hEH, hEV],
            ih]
          cases lastMatch execHostP rest with
          | some b => rfl
          | none =>
            rw [mapResources_dlookup_ne _ _ _ (by decide)]
            simp [execHostP, hsk, hEH]

theorem usedFold_execvnode (used : List (String × String)) :
    ∀ attrs : AttrMap,
      dlookup (used.foldl usedStep attrs) "ji_execvnode" =
        match lastMatch execVnodeP used with
        | some p => some (PyVal.strList (pySplit p.2 '+'))
        | Option.none => dlookup attrs "ji_execvnode" := by
  induction used with
  | nil => intro attrs; simp [lastMatch]
  | cons p rest ih =>
    intro attrs
    rw [List.foldl_cons]
    simp only [lastMatch]
    by_cases hsk : (p.1 = "" ∧ p.2 = "")
    · rw [show usedStep attrs p = attrs from by simp [usedStep, hsk], ih attrs]
      cases lastMatch execVnodeP rest with
      | some b => rfl
      | none => simp [execVnodeP, hsk]
    · cases hEH : strContains p.1 "exec_host" with
      | true =>
        rw [show usedStep attrs p =
              dictInsert attrs "ji_exechost" (PyVal.strList (pySplit p.2 '+')) from by
            simp [usedStep, hsk, hEH],
          ih]
        cases lastMatch execVnodeP rest with
        | some b => rfl
        | none =>
          rw [dlookup_dictInsert]
          simp [execVnodeP, hsk, hEH]
      | false =>
        cases hEV : strContains p.1 "exec_vnode" with
        | true =>
          rw [show usedStep attrs p =
                dictInsert attrs "ji_execvnode" (PyVal.strList (pySplit p.2 '+')) from by
              simp [usedStep, hsk, hEH, hEV],
            ih]
          cases lastMatch execVnodeP rest with
          | some b => rfl
          | none =>
            rw [dlookup_dictInsert]
            simp [execVnodeP, hsk, hEH, hEV]
        | false =>
          rw [show usedStep attrs p =
                mapResources attrs (fun res => dictInsert res ("u_" ++ p.1) p.2) from by
              simp [usedStep, hsk, hEH, hEV],
            ih]
          cases lastMatch execVnodeP rest with
          | some b => rfl
          | none =>
            rw [mapResources_dlookup_ne _ _ _ (by decide)]
            simp [execVnodeP, hsk, hEH, hEV]

/-! ### Key-shape helpers for the prefixed resource names -/

theorem uKeyInj (a b : String) (h : "u_" ++ a = "u_" ++ b) : a = b := by
  have hd : ("u_" ++ a).data = ("u_" ++ b).data := by rw [h]
  simp [String.data_append] at hd
  exact String.ext hd

theorem lKeyInj (a b : String) (h : "l_" ++ a = "l_" ++ b) : a = b := by
  have hd : ("l_" ++ a).data = ("l_" ++ b).data := by rw [h]
  simp [String.data_append] at hd
  exact String.ext hd

theorem lKeyNeUKey (a b : String) : ("l_" ++ a) ≠ ("u_" ++ b) := by
  intro h
  have hd : ("l_" ++ a).data = ("u_" ++ b).data := by rw [h]
  simp [String.data_append] at hd

/-! ### Lookup lemmas for the two resource folds -/

theorem uResFold_dlookup_skip (used : List (String × String)) :
    ∀ (res : StrDict) (k : String),
      (∀ p ∈ used, ("u_" ++ p.1) = k →
        (p.1 = "" ∧ p.2 = "") ∨ strContains p.1 "exec_host" = true ∨
          strContains p.1 "exec_vnode" = true) →
      dlookup (used.foldl uResStep res) k = dlookup res k := by
  induction used with
  | nil => intro res k _; rfl
  | cons p rest ih =>
    intro res k hcond
    rw [List.foldl_cons]
    have hrest := fun q hq => hcond q (List.mem_cons_of_mem p hq)
    by_cases hsk : (p.1 = "" ∧ p.2 = "")
    · rw [show uResStep res p = res from by simp [uResStep, hsk]]
      exact ih res k hrest
    · cases hEH : strContains p.1 "exec_host" with
      | true =>
        rw [show uResStep res p = res from by simp [uResStep, hsk, hEH]]
        exact ih res k hrest
      | false =>
        cases hEV : strContains p.1 "exec_vnode" with
        | true =>
          rw [show uResStep res p = res from by simp [uResStep, hsk, hEH, hEV]]
          exact ih res k hrest
        | false =>
          rw [show uResStep res p = dictInsert res ("u_" ++ p.1) p.2 from by
              simp [uResStep, hsk, hEH, hEV]]
          rw [ih _ k hrest, dlookup_dictInsert]
          have hne : ("u_" ++ p.1) ≠ k := by
            intro he
            rcases hcond p (List.mem_cons_self p rest) he with h | h | h
            · exact hsk h
            · rw [hEH] at h; cases h
            · rw [hEV] at h; cases h
          rw [if_neg hne]

theorem reqFold_dlookup_skip (req : List (String × String)) :
    ∀ (res : StrDict) (k : String),
      (∀ p ∈ req, ("l_" ++ p.1) = k → (p.1 = "" ∧ p.2 = "")) →
      dlookup (req.foldl reqStep res) k = dlookup res k := by
  induction req with
  | nil => intro res k _; rfl
  | cons p rest ih =>
    intro res k hcond
    rw [List.foldl_cons]
    have hrest := fun q hq => hcond q (List.mem_cons_of_mem p hq)
    by_cases hsk : (p.1 = "" ∧ p.2 = "")
    · rw [show reqStep res p = res from by simp [reqStep, hsk]]
      exact ih res k hrest
    · rw [show reqStep res p = dictInsert res ("l_" ++ p.1) p.2 from by simp [reqStep, hsk]]
      rw [ih _ k hrest, dlookup_dictInsert]
      have hne : ("l_" ++ p.1) ≠ k :=
        fun he => hsk (hcond p (List.mem_cons_self p rest) he)
      rw [if_neg hne]

theorem reqFold_dlookup_mem (req : List (String × String)) :
    ∀ res : StrDict, (req.map Prod.fst).Nodup →
      ∀ n v, (n, v) ∈ req → ¬(n = "" ∧ v = "") →
        dlookup (req.foldl reqStep res) ("l_" ++ n) = some v := by
  induction req with
  | nil => intro res _ n v h; cases h
  | cons p rest ih =>
    intro res hnd n v hmem hnv
    rw [List.map_cons, List.nodup_cons] at hnd
    rw [List.foldl_cons]
    rcases List.mem_cons.mp hmem with heq | hmem'
    · have hp : p = (n, v) := heq.symm
      subst hp
      rw [show reqStep res (n, v) = dictInsert res ("l_" ++ n) v from by simp [reqStep, hnv]]
      rw [reqFold_dlookup_skip rest _ _ ?hc, dlookup_dictInsert, if_pos rfl]
      case hc =>
        intro q hq he
        exfalso
        have h1 : q.1 = n := lKeyInj _ _ he
        have hq1 : q.1 ∈ rest.map Prod.fst := List.mem_map_of_mem Prod.fst hq
        rw [h1] at hq1
        exact hnd.1 hq1
    · exact ih (reqStep res p) hnd.2 n v hmem' hnv

theorem uResFold_dlookup_mem (used : List (String × String)) :
    ∀ res : StrDict, (used.map Prod.fst).Nodup →
      ∀ n v, (n, v) ∈ used → ¬(n = "" ∧ v = "") →
        strContains n "exec_host" = false → strContains n "exec_vnode" = false →
        dlookup (used.foldl uResStep res) ("u_" ++ n) = some v := by
  induction used with
  | nil => intro res _ n v h; cases h
  | cons p rest ih =>
    intro res hnd n v hmem hnv hEH hEV
    rw [List.map_cons, List.nodup_cons] at hnd
    rw [List.foldl_cons]
    rcases List.mem_cons.mp hmem with heq | hmem'
    · have hp : p = (n, v) := heq.symm
      subst hp
      rw [show uResStep res (n, v) = dictInsert res ("u_" ++ n) v from by
          simp [uResStep, hnv, hEH, hEV]]
      rw [uResFold_dlookup_skip rest _ _ ?hc, dlookup_dictInsert, if_pos rfl]
      case hc =>
        intro q hq he
        exfalso
        have h1 : q.1 = n := uKeyInj _ _ he
        have hq1 : q.1 ∈ rest.map Prod.fst := List.mem_map_of_mem Prod.fst hq
        rw [h1] at hq1
        exact hnd.1 hq1
    · exact ih (uResStep res p) hnd.2 n v hmem' hnv hEH hEV

/-! ### Extraction of the resource-related attributes of `logLineParser` -/

theorem dlookup_resources_logLineParser (log_dict req used : StrDict) :
    dlookup (logLineParser (log_dict, req, used)) "resources" =
      some (PyVal.dict (used.foldl uResStep (req.foldl reqStep []))) := by
  simp only [logLineParser]
  rw [dlookup_dictInsert, if_neg (by decide), dlookup_dictInsert, if_neg (by decide)]
  exact usedFold_resources used _ _ (by
    rw [dlookup_dictInsert, if_neg (by decide), dlookup_dictInsert, if_neg (by decide),
        dlookup_dictInsert, if_pos rfl])

theorem dlookup_exechost_logLineParser (log_dict req used : StrDict) :
    dlookup (logLineParser (log_dict, req, used)) "ji_exechost" =
      (match lastMatch execHostP used with
       | some p => some (PyVal.strList (pySplit p.2 '+'))
       | Option.none => some PyVal.none) := by
  simp only [logLineParser]
  rw [dlookup_dictInsert, if_neg (by decide), dlookup_dictInsert, if_neg (by decide)]
  rw [usedFold_exechost]
  cases lastMatch execHostP used with
  | some p => rfl
  | none =>
    rw [dlookup_dictInsert, if_neg (by decide), dlookup_dictInsert, if_pos rfl]

theorem dlookup_execvnode_logLineParser (log_dict req used : StrDict) :
    dlookup (logLineParser (log_dict, req, used)) "ji_execvnode" =
      (match lastMatch execVnodeP used with
       | some p => some (PyVal.strList (pySplit p.2 '+'))
       | Option.none => some PyVal.none) := by
  simp only [logLineParser]
  rw [dlookup_dictInsert, if_neg (by decide), dlookup_dictInsert, if_neg (by decide)]
  rw [usedFold_execvnode]
  cases lastMatch execVnodeP used with
  | some p => rfl
  | none =>
    rw [dlookup_dictInsert, if_pos rfl]

/-- C5 amended: the builder's resource mapping contains key `l_` + name with
the string value for every requested pair whose name and value are not both
empty, and key `u_` + name for every used pair whose name and value are not
both empty and whose name does not contain `exec_host` or `exec_vnode` as a
substring; a used pair whose name does contain `exec_host` or `exec_vnode`
contributes no `u_` key at all and is instead routed to the list-valued
attributes: `ji_exechost` holds the `+`-split value of the last used pair
whose name contains `exec_host` (null if none), and `ji_execvnode` the
`+`-split value of the last used pair whose name contains `exec_vnode` but
not `exec_host` (null if none). -/
theorem logLineParser_resource_mapping (job : ParsedTriple)
    (hreq : (job.2.1.map Prod.fst).Nodup) (hused : (job.2.2.map Prod.fst).Nodup) :
    (∀ n v, (n, v) ∈ job.2.1 → ¬(n = "" ∧ v = "") →
      dlookup (resourcesOf (logLineParser job)) ("l_" ++ n) = some v) ∧
    (∀ n v, (n, v) ∈ job.2.2 → ¬(n = "" ∧ v = "") →
      strContains n "exec_host" = false → strContains n "exec_vnode" = false →
      dlookup (resourcesOf (logLineParser job)) ("u_" ++ n) = some v) ∧
    (∀ n v, (n, v) ∈ job.2.2 →
      (strContains n "exec_host" = true ∨ strContains n "exec_vnode" = true) →
      dlookup (resourcesOf (logLineParser job)) ("u_" ++ n) = Option.none) ∧
    dlookup (logLineParser job) "ji_exechost" =
      (match lastMatch execHostP job.2.2 with
       | some p => some (PyVal.strList (pySplit p.2 '+'))
       | Option.none => some PyVal.none) ∧
    dlookup (logLineParser job) "ji_execvnode" =
      (match lastMatch execVnodeP job.2.2 with
       | some p => some (PyVal.strList (pySplit p.2 '+'))
       | Option.none => some PyVal.none) := by
  obtain ⟨log_dict, req, used⟩ := job
  have hres : resourcesOf (logLineParser (log_dict, req, used)) =
      used.foldl uResStep (req.foldl reqStep []) := by
    rw [resourcesOf, dlookup_resources_logLineParser]
  refine ⟨?_, ?_, ?_, ?_, ?_⟩
  · intro n v hmem hnv
    rw [hres]
    rw [uResFold_dlookup_skip used _ _ (fun q _ he => absurd he.symm (lKeyNeUKey n q.1))]
    exact reqFold_dlookup_mem req [] hreq n v hmem hnv
  · intro n v hmem hnv hEH hEV
    rw [hres]
    exact uResFold_dlookup_mem used _ hused n v hmem hnv hEH hEV
  · intro n v hmem hexec
    rw [hres]
    rw [uResFold_dlookup_skip used _ _ ?hc]
    · rw [reqFold_dlookup_skip req _ _ (fun q _ he => absurd he (lKeyNeUKey q.1 n))]
      rfl
    case hc =>
      intro q _ he
      have h1 : q.1 = n := uKeyInj _ _ he
      rcases hexec with h | h
      · exact Or.inr (Or.inl (h1 ▸ h))
      · exact Or.inr (Or.inr (h1 ▸ h))
  · exact dlookup_exechost_logLineParser log_dict req used
  · exact dlookup_execvnode_logLineParser log_dict req used

/-- A concrete parsed event exercising every clause of the amended C5
theorem. -/
def c5_witness_job : ParsedTriple :=
  ([("log_date", "11/12/2018 13:50:12"), ("job_state", "E"), ("job_id", "2.srv")],
   [("ncpus", "1")],
   [("walltime", "00:00:11"), ("exec_host", "a+b")])

/-- Witness for the amended C5 theorem at `c5_witness_job`. -/
theorem logLineParser_resource_mapping_witness :
    dlookup (resourcesOf (logLineParser c5_witness_job)) ("l_" ++ "ncpus") = some "1" ∧
    dlookup (resourcesOf (logLineParser c5_witness_job)) ("u_" ++ "walltime") =
      some "00:00:11" ∧
    dlookup (resourcesOf (logLineParser c5_witness_job)) ("u_" ++ "exec_host") =
      Option.none ∧
    dlookup (logLineParser c5_witness_job) "ji_exechost" =
      some (PyVal.strList ["a", "b"]) := by
  have h := logLineParser_resource_mapping c5_witness_job (by decide) (by decide)
  refine ⟨h.1 "ncpus" "1" (by decide) (by decide),
          h.2.1 "walltime" "00:00:11" (by decide) (by decide) (by decide) (by decide),
          h.2.2.1 "exec_host" "a+b" (by decide) (Or.inl (by decide)), ?_⟩
  rw [h.2.2.2.1]
  decide

/-! ## The reporting-store tables and `_merge_by_query` (orm_lib.py lines
287-303, utils.py table classes, reporting_database_connect.py)

Tables are lists of rows; the autoincrement primary key is modelled by a
fresh-index function. `_merge_by_query` looks up the first row matching the
query dictionary; if none it adds the instance (the key receiving a fresh
value on flush), else it overwrites on the found row every column of the
class's `attributes` list — the `p_key` (the autoincrement index) excluded. -/

/-- The data carried by a `PbsJob` instance: the 18 columns of the
`attributes` class variable of `PbsJob` (utils.py), i.e. everything except
the autoincrement primary key `ji_pbsjobidx`. -/
structure PbsJobRecord : Type where
  ji_jobid : PyVal
  ji_jobname : PyVal
  ji_user : PyVal
  ji_group : PyVal
  ji_project : PyVal
  ji_sv_name : PyVal
  ji_queue : PyVal
  ji_priority : PyVal
  ji_cr_time : PyVal
  ji_quetime : PyVal
  ji_runcount : PyVal
  ji_eligible_time : PyVal
  ji_start_time : PyVal
  ji_end_time : PyVal
  ji_sessionid : PyVal
  ji_exitstat : PyVal
  ji_exechost : PyVal
  ji_execvnode : PyVal
deriving DecidableEq, Repr

/-- A row of the `pbsjob` table: primary key plus the 18 attributes. -/
structure PbsJobRow : Type where
  ji_pbsjobidx : Nat
  ji_jobid : PyVal
  ji_jobname : PyVal
  ji_user : PyVal
  ji_group : PyVal
  ji_project : PyVal
  ji_sv_name : PyVal
  ji_queue : PyVal
  ji_priority : PyVal
  ji_cr_time : PyVal
  ji_quetime : PyVal
  ji_runcount : PyVal
  ji_eligible_time : PyVal
  ji_start_time : PyVal
  ji_end_time : PyVal
  ji_sessionid : PyVal
  ji_exitstat : PyVal
  ji_exechost : PyVal
  ji_execvnode : PyVal
deriving DecidableEq, Repr

/-- A freshly inserted row: autoincrement key `i`, all attributes from the
instance. -/
def PbsJobRow.ofRecord (i : Nat) (r : PbsJobRecord) : PbsJobRow :=
  ⟨i, r.ji_jobid, r.ji_jobname, r.ji_user, r.ji_group, r.ji_project, r.ji_sv_name,
   r.ji_queue, r.ji_priority, r.ji_cr_time, r.ji_quetime, r.ji_runcount,
   r.ji_eligible_time, r.ji_start_time, r.ji_end_time, r.ji_sessionid,
   r.ji_exitstat, r.ji_exechost, r.ji_execvnode⟩

/-- The `setattr` loop of `_merge_by_query`: overwrite every attribute of
`attributes` not in `p_key` — all 18 columns, the key `ji_pbsjobidx`
untouched. -/
def setJobAttrs (row : PbsJobRow) (r : PbsJobRecord) : PbsJobRow :=
  { row with
    ji_jobid := r.ji_jobid, ji_jobname := r.ji_jobname, ji_user := r.ji_user,
    ji_group := r.ji_group, ji_project := r.ji_project, ji_sv_name := r.ji_sv_name,
    ji_queue := r.ji_queue, ji_priority := r.ji_priority, ji_cr_time := r.ji_cr_time,
    ji_quetime := r.ji_quetime, ji_runcount := r.ji_runcount,
    ji_eligible_time := r.ji_eligible_time, ji_start_time := r.ji_start_time,
    ji_end_time := r.ji_end_time, ji_sessionid := r.ji_sessionid,
    ji_exitstat := r.ji_exitstat, ji_exechost := r.ji_exechost,
    ji_execvnode := r.ji_execvnode }

/-- Autoincrement: a value strictly larger than every key in the table. -/
def freshJobIdx (table : List PbsJobRow) : Nat :=
  (table.map PbsJobRow.ji_pbsjobidx).foldr max 0 + 1

/-- Overwrite the attributes of the first row matching the query
`ji_jobid = r.ji_jobid` (the row `_merge_by_query` found). -/
def replaceFirstJob (r : PbsJobRecord) : List PbsJobRow → List PbsJobRow
  | [] => []
  | row :: rest =>
    if row.ji_jobid = r.ji_jobid then setJobAttrs row r :: rest
    else row :: replaceFirstJob r rest

/-- `_insert_pbs_job_data` through `_merge_by_query` with
`query_dict = {ji_jobid}`: query the first row by `ji_jobid`; if absent add
the instance, else overwrite its non-key attributes in place. -/
def mergeJobByQuery (table : List PbsJobRow) (r : PbsJobRecord) : List PbsJobRow :=
  match table.find? (fun row => row.ji_jobid == r.ji_jobid) with
  | Option.none => table ++ [PbsJobRow.ofRecord (freshJobIdx table) r]
  | some _ => replaceFirstJob r table

theorem setJobAttrs_eq_ofRecord (row : PbsJobRow) (r : PbsJobRecord) :
    setJobAttrs row r = PbsJobRow.ofRecord row.ji_pbsjobidx r := rfl

/-- Uniqueness of `ji_jobid` across a table (`CONSTRAINT unq_pbsjob`). -/
def jobKeysNodup (table : List PbsJobRow) : Prop :=
  (table.map PbsJobRow.ji_jobid).Nodup

theorem replaceFirstJob_map_jobid (r : PbsJobRecord) (table : List PbsJobRow) :
    (replaceFirstJob r table).map PbsJobRow.ji_jobid = table.map PbsJobRow.ji_jobid := by
  induction table with
  | nil => rfl
  | cons row rest ih =>
    by_cases h : row.ji_jobid = r.ji_jobid
    · simp [replaceFirstJob, h, setJobAttrs_eq_ofRecord, PbsJobRow.ofRecord]
    · simp [replaceFirstJob, h, ih]

theorem mergeJobByQuery_nodup (table : List PbsJobRow) (r : PbsJobRecord)
    (hnd : jobKeysNodup table) : jobKeysNodup (mergeJobByQuery table r) := by
  unfold mergeJobByQuery
  cases hf : table.find? (fun row => row.ji_jobid == r.ji_jobid) with
  | none =>
    have habs : ∀ row ∈ table, ¬(row.ji_jobid = r.ji_jobid) := by
      intro row hrow
      have := List.find?_eq_none.mp hf row hrow
      simpa using this
    unfold jobKeysNodup at hnd ⊢
    rw [List.map_append]
    rw [List.nodup_append]
    refine ⟨hnd, List.nodup_singleton _, ?_⟩
    intro a ha hb
    simp [PbsJobRow.ofRecord] at hb
    rcases List.mem_map.mp ha with ⟨row, hrow, hq⟩
    exact habs row hrow (by rw [hq, hb])
  | some row₀ =>
    unfold jobKeysNodup at hnd ⊢
    rw [replaceFirstJob_map_jobid]
    exact hnd

theorem replaceFirstJob_filter (r : PbsJobRecord) (table : List PbsJobRow)
    (hnd : jobKeysNodup table) (row₀ : PbsJobRow)
    (hf : table.find? (fun row => row.ji_jobid == r.ji_jobid) = some row₀) :
    (replaceFirstJob r table).filter (fun row => row.ji_jobid == r.ji_jobid) =
      [setJobAttrs row₀ r] ∧
    ∀ row ∈ table, row.ji_jobid = r.ji_jobid → row.ji_pbsjobidx = row₀.ji_pbsjobidx := by
  induction table with
  | nil => cases hf
  | cons row rest ih =>
    unfold jobKeysNodup at hnd
    rw [List.map_cons, List.nodup_cons] at hnd
    by_cases h : row.ji_jobid = r.ji_jobid
    · rw [List.find?_cons_of_pos _ (by simpa using h)] at hf
      have hrow₀ : row₀ = row := (Option.some.inj hf).symm
      subst hrow₀
      have hnomatch : ∀ q ∈ rest, ¬(q.ji_jobid == r.ji_jobid) = true := by
        intro q hq
        simp only [beq_iff_eq]
        intro hq'
        refine hnd.1 ?_
        rw [h, ← hq']
        exact List.mem_map_of_mem PbsJobRow.ji_jobid hq
      constructor
      · rw [show replaceFirstJob r (row₀ :: rest) = setJobAttrs row₀ r :: rest from by
            simp [replaceFirstJob, h]]
        rw [List.filter_cons_of_pos (by
          simp [setJobAttrs_eq_ofRecord, PbsJobRow.ofRecord])]
        rw [List.filter_eq_nil_iff.mpr hnomatch]
      · intro q hq hq'
        rcases List.mem_cons.mp hq with rfl | hq2
        · rfl
        · exact absurd (by simpa using hq' : (q.ji_jobid == r.ji_jobid) = true)
            (hnomatch q hq2)
    · rw [List.find?_cons_of_neg _ (by simpa using h)] at hf
      obtain ⟨ih1, ih2⟩ := ih hnd.2 hf
      constructor
      · rw [show replaceFirstJob r (row :: rest) = row :: replaceFirstJob r rest from by
            simp [replaceFirstJob, h]]
        rw [List.filter_cons_of_neg (by simpa using h)]
        exact ih1
      · intro q hq hq'
        rcases List.mem_cons.mp hq with rfl | hq2
        · exact absurd hq' h
        · exact ih2 q hq2 hq'

/-- C1: after any prior sequence of upserts starting from the empty table,
applying the job upsert with record `R` leaves exactly one row whose
`ji_jobid` equals `R`'s: the filtered table is a single row carrying all 18
attributes of the most recent application, and its primary key `i` is the
key the matched row already had (the key field is left untouched). -/
theorem upsertJob_last_write_wins (rs : List PbsJobRecord) (R : PbsJobRecord) :
    ∃ i : Nat,
      (mergeJobByQuery (rs.foldl mergeJobByQuery []) R).filter
        (fun row => row.ji_jobid == R.ji_jobid) = [PbsJobRow.ofRecord i R] ∧
      ∀ row ∈ rs.foldl mergeJobByQuery [], row.ji_jobid = R.ji_jobid →
        row.ji_pbsjobidx = i := by
  have hnd : jobKeysNodup (rs.foldl mergeJobByQuery []) := by
    have : ∀ t : List PbsJobRow, jobKeysNodup t → jobKeysNodup (rs.foldl mergeJobByQuery t) := by
      induction rs with
      | nil => intro t h; exact h
      | cons r rest ih =>
        intro t h
        exact ih _ (mergeJobByQuery_nodup t r h)
    exact this [] (List.nodup_nil)
  set t := rs.foldl mergeJobByQuery [] with ht
  cases hf : t.find? (fun row => row.ji_jobid == R.ji_jobid) with
  | none =>
    refine ⟨freshJobIdx t, ?_, ?_⟩
    · rw [show mergeJobByQuery t R = t ++ [PbsJobRow.ofRecord (freshJobIdx t) R] from by
          rw [mergeJobByQuery, hf]]
      rw [List.filter_append]
      rw [List.filter_eq_nil_iff.mpr (fun q hq => by
        simpa using List.find?_eq_none.mp hf q hq)]
      rw [List.filter_cons_of_pos (by simp [PbsJobRow.ofRecord])]
      rfl
    · intro row hrow hq
      exact absurd (by simpa using hq)
        (by simpa using List.find?_eq_none.mp hf row hrow)
  | some row₀ =>
    obtain ⟨h1, h2⟩ := replaceFirstJob_filter R t hnd row₀ hf
    refine ⟨row₀.ji_pbsjobidx, ?_, h2⟩
    rw [show mergeJobByQuery t R = replaceFirstJob R t from by rw [mergeJobByQuery, hf]]
    rw [h1, setJobAttrs_eq_ofRecord]

/-- Two concrete job records sharing a `ji_jobid` for the C1 witness. -/
def jobRecordA : PbsJobRecord :=
  ⟨PyVal.str "1.srv", PyVal.str "a", PyVal.str "u", PyVal.str "g", PyVal.str "p",
   PyVal.str "srv", PyVal.str "workq", PyVal.int 1, PyVal.none, PyVal.none,
   PyVal.none, PyVal.none, PyVal.none, PyVal.none, PyVal.none, PyVal.none,
   PyVal.none, PyVal.none⟩

/-- Like `jobRecordA` but with a later lifecycle state (start time set). -/
def jobRecordB : PbsJobRecord :=
  ⟨PyVal.str "1.srv", PyVal.str "a", PyVal.str "u", PyVal.str "g", PyVal.str "p",
   PyVal.str "srv", PyVal.str "workq", PyVal.int 1, PyVal.none, PyVal.none,
   PyVal.none, PyVal.none, PyVal.str "1542030611", PyVal.none, PyVal.none,
   PyVal.none, PyVal.none, PyVal.none⟩

/-- Witness for C1: upserting `jobRecordA` then `jobRecordB` (same job id)
leaves exactly one row for that id, carrying `jobRecordB`'s attributes on
the key minted by the first insert. -/
theorem upsertJob_last_write_wins_witness :
    (mergeJobByQuery (mergeJobByQuery [] jobRecordA) jobRecordB).filter
      (fun row => row.ji_jobid == jobRecordB.ji_jobid) =
      [PbsJobRow.ofRecord 1 jobRecordB] := by
  obtain ⟨i, h1, h2⟩ := upsertJob_last_write_wins [jobRecordA] jobRecordB
  have hi : i = 1 := by
    have := h2 (PbsJobRow.ofRecord 1 jobRecordA) (by decide) (by decide)
    simpa using this.symm
  rw [hi] at h1
  simpa using h1

/-! ### The `pbsjobarr` resource table (C2) -/

/-- The data carried by a `PbsJobArr` instance (`_insert_pbs_job_arr_data`):
the job-row key, the resource name and the resource value. -/
structure PbsJobArrRecord : Type where
  ji_pbsjobidx : Nat
  ji_arrresource : String
  ji_arrvalue : String
deriving DecidableEq, Repr

/-- A row of the `pbsjobarr` table: autoincrement key plus the three
attributes. -/
structure PbsJobArrRow : Type where
  ji_pbsjobarridx : Nat
  ji_pbsjobidx : Nat
  ji_arrresource : String
  ji_arrvalue : String
deriving DecidableEq, Repr

/-- The query of `_insert_pbs_job_arr_data`: filter by the full triple. -/
def arrMatches (e : PbsJobArrRecord) (row : PbsJobArrRow) : Bool :=
  row.ji_pbsjobidx == e.ji_pbsjobidx && row.ji_arrresource == e.ji_arrresource &&
    row.ji_arrvalue == e.ji_arrvalue

/-- A freshly inserted resource row. -/
def PbsJobArrRow.ofRecord (i : Nat) (e : PbsJobArrRecord) : PbsJobArrRow :=
  ⟨i, e.ji_pbsjobidx, e.ji_arrresource, e.ji_arrvalue⟩

/-- The `setattr` loop of `_merge_by_query` on a `pbsjobarr` row: overwrite
the three `attributes`, leaving the `p_key` `ji_pbsjobarridx` untouched. -/
def setArrAttrs (row : PbsJobArrRow) (e : PbsJobArrRecord) : PbsJobArrRow :=
  { row with
    ji_pbsjobidx := e.ji_pbsjobidx, ji_arrresource := e.ji_arrresource,
    ji_arrvalue := e.ji_arrvalue }

/-- Autoincrement for the resource table. -/
def freshArrIdx (table : List PbsJobArrRow) : Nat :=
  (table.map PbsJobArrRow.ji_pbsjobarridx).foldr max 0 + 1

/-- Overwrite the attributes of the first row matching the triple query. -/
def replaceFirstArr (e : PbsJobArrRecord) : List PbsJobArrRow → List PbsJobArrRow
  | [] => []
  | row :: rest =>
    if arrMatches e row then setArrAttrs row e :: rest
    else row :: replaceFirstArr e rest

/-- `_insert_pbs_job_arr_data` through `_merge_by_query` with
`query_dict = {ji_pbsjobidx, ji_arrresource, ji_arrvalue}`: query the first
row by the full triple; if absent add the instance, else overwrite the
(identical) non-key attributes on the found row. -/
def mergeArrByQuery (table : List PbsJobArrRow) (e : PbsJobArrRecord) : List PbsJobArrRow :=
  match table.find? (arrMatches e) with
  | Option.none => table ++ [PbsJobArrRow.ofRecord (freshArrIdx table) e]
  | some _ => replaceFirstArr e table

/-- A row matching the triple query carries exactly the record's values, so
overwriting them is the identity. -/
theorem setArrAttrs_of_matches (e : PbsJobArrRecord) (row : PbsJobArrRow)
    (h : arrMatches e row = true) : setArrAttrs row e = row := by
  obtain ⟨i, j, res, v⟩ := row
  simp only [arrMatches, Bool.and_eq_true, beq_iff_eq] at h
  obtain ⟨⟨h1, h2⟩, h3⟩ := h
  simp [setArrAttrs, h1, h2, h3]

/-- Rewriting the first matching row is the identity on the whole table. -/
theorem replaceFirstArr_eq_self (e : PbsJobArrRecord) (table : List PbsJobArrRow) :
    replaceFirstArr e table = table := by
  induction table with
  | nil => rfl
  | cons row rest ih =>
    cases h : arrMatches e row with
    | true => simp [replaceFirstArr, h, setArrAttrs_of_matches e row h]
    | false => simp [replaceFirstArr, h, ih]

/-- When a row with the triple already exists, the upsert is a no-op. -/
theorem mergeArrByQuery_of_found (table : List PbsJobArrRow) (e : PbsJobArrRecord)
    (row₀ : PbsJobArrRow) (hf : table.find? (arrMatches e) = some row₀) :
    mergeArrByQuery table e = table := by
  rw [mergeArrByQuery, hf, replaceFirstArr_eq_self]

/-- Triple-uniqueness across the resource table
(`UNIQUE (ji_pbsjobidx, ji_arrresource, ji_arrvalue)`). -/
def arrTriplesNodup (table : List PbsJobArrRow) : Prop :=
  (table.map (fun row => (row.ji_pbsjobidx, row.ji_arrresource, row.ji_arrvalue))).Nodup

theorem arrMatches_iff (e : PbsJobArrRecord) (row : PbsJobArrRow) :
    arrMatches e row = true ↔
      (row.ji_pbsjobidx, row.ji_arrresource, row.ji_arrvalue) =
        (e.ji_pbsjobidx, e.ji_arrresource, e.ji_arrvalue) := by
  simp [arrMatches, Bool.and_eq_true, beq_iff_eq, and_assoc]

theorem mergeArrByQuery_nodup (table : List PbsJobArrRow) (e : PbsJobArrRecord)
    (hnd : arrTriplesNodup table) : arrTriplesNodup (mergeArrByQuery table e) := by
  cases hf : table.find? (arrMatches e) with
  | none =>
    rw [mergeArrByQuery, hf]
    unfold arrTriplesNodup at hnd ⊢
    rw [List.map_append, List.nodup_append]
    refine ⟨hnd, List.nodup_singleton _, ?_⟩
    intro a ha hb
    simp [PbsJobArrRow.ofRecord] at hb
    rcases List.mem_map.mp ha with ⟨row, hrow, hq⟩
    have := List.find?_eq_none.mp hf row hrow
    rw [arrMatches_iff] at this
    exact this (by rw [hq, hb])
  | some row₀ =>
    rw [mergeArrByQuery_of_found table e row₀ hf]
    exact hnd

theorem arr_filter_of_nodup (e : PbsJobArrRecord) (table : List PbsJobArrRow)
    (hnd : arrTriplesNodup table) (row₀ : PbsJobArrRow)
    (hf : table.find? (arrMatches e) = some row₀) :
    table.filter (arrMatches e) = [row₀] := by
  induction table with
  | nil => cases hf
  | cons row rest ih =>
    unfold arrTriplesNodup at hnd
    rw [List.map_cons, List.nodup_cons] at hnd
    cases h : arrMatches e row with
    | true =>
      rw [List.find?_cons_of_pos _ h] at hf
      have hrow₀ : row₀ = row := (Option.some.inj hf).symm
      subst hrow₀
      rw [List.filter_cons_of_pos h]
      rw [List.filter_eq_nil_iff.mpr ?hnm]
      case hnm =>
        intro q hq hq'
        refine hnd.1 ?_
        have h1 := (arrMatches_iff e row₀).mp h
        have h2 := (arrMatches_iff e q).mp hq'
        rw [h1, ← h2]
        exact List.mem_map_of_mem _ hq
    | false =>
      rw [List.find?_cons_of_neg _ (by simp [h])] at hf
      rw [List.filter_cons_of_neg (by simp [h])]
      exact ih hnd.2 hf

/-- C2: after any prior sequence of resource upserts starting from the
empty table, applying the resource upsert with a triple `e` leaves exactly
one row for that triple; a row is appended only when no row with that exact
triple exists (otherwise the table is unchanged), and any number of repeat
applications of the identical triple is a no-op. -/
theorem upsertResource_append_only_idempotent (es : List PbsJobArrRecord)
    (e : PbsJobArrRecord) :
    ((mergeArrByQuery (es.foldl mergeArrByQuery []) e).filter (arrMatches e)).length = 1 ∧
    ((es.foldl mergeArrByQuery []).find? (arrMatches e) = Option.none →
      mergeArrByQuery (es.foldl mergeArrByQuery []) e =
        es.foldl mergeArrByQuery [] ++
          [PbsJobArrRow.ofRecord (freshArrIdx (es.foldl mergeArrByQuery [])) e]) ∧
    ∀ n : Nat,
      (fun u => mergeArrByQuery u e)^[n] (mergeArrByQuery (es.foldl mergeArrByQuery []) e) =
        mergeArrByQuery (es.foldl mergeArrByQuery []) e := by
  have hnd : arrTriplesNodup (es.foldl mergeArrByQuery []) := by
    have : ∀ t : List PbsJobArrRow, arrTriplesNodup t →
        arrTriplesNodup (es.foldl mergeArrByQuery t) := by
      induction es with
      | nil => intro t h; exact h
      | cons r rest ih => intro t h; exact ih _ (mergeArrByQuery_nodup t r h)
    exact this [] List.nodup_nil
  set t := es.foldl mergeArrByQuery [] with ht
  have hfix : mergeArrByQuery (mergeArrByQuery t e) e = mergeArrByQuery t e := by
    cases hf : t.find? (arrMatches e) with
    | none =>
      have hins : mergeArrByQuery t e = t ++ [PbsJobArrRow.ofRecord (freshArrIdx t) e] := by
        rw [mergeArrByQuery, hf]
      rw [hins]
      refine mergeArrByQuery_of_found _ e (PbsJobArrRow.ofRecord (freshArrIdx t) e) ?_
      rw [List.find?_append, hf]
      simp [List.find?, PbsJobArrRow.ofRecord, arrMatches]
    | some row₀ =>
      rw [mergeArrByQuery_of_found t e row₀ hf, mergeArrByQuery_of_found t e row₀ hf]
  refine ⟨?_, ?_, ?_⟩
  · cases hf : t.find? (arrMatches e) with
    | none =>
      rw [mergeArrByQuery, hf, List.filter_append]
      rw [List.filter_eq_nil_iff.mpr (fun q hq hq' =>
        (List.find?_eq_none.mp hf q hq) hq')]
      rw [List.filter_cons_of_pos (by simp [PbsJobArrRow.ofRecord, arrMatches])]
      rfl
    | some row₀ =>
      rw [mergeArrByQuery_of_found t e row₀ hf]
      rw [arr_filter_of_nodup e t hnd row₀ hf]
      rfl
  · intro hf
    rw [mergeArrByQuery, hf]
  · intro n
    exact Function.iterate_fixed hfix n

/-- A concrete resource triple for the C2 witness. -/
def arrRecordA : PbsJobArrRecord := ⟨1, "l_ncpus", "1"⟩

/-- Witness for C2: after inserting the triple once, a repeat application
leaves exactly one row for it and a further application is a no-op. -/
theorem upsertResource_append_only_idempotent_witness :
    ((mergeArrByQuery ([arrRecordA].foldl mergeArrByQuery []) arrRecordA).filter
      (arrMatches arrRecordA)).length = 1 ∧
    mergeArrByQuery
        (mergeArrByQuery ([arrRecordA].foldl mergeArrByQuery []) arrRecordA) arrRecordA =
      mergeArrByQuery ([arrRecordA].foldl mergeArrByQuery []) arrRecordA := by
  have h := upsertResource_append_only_idempotent [arrRecordA] arrRecordA
  exact ⟨h.1, by simpa using h.2.2 1⟩

/-! ## `get_first_log` (pbs_loghandler.py lines 105-115) — claim C6 -/

/-- Lexicographic (code-point) string order, Python's `<=` on `str`,
implemented over the character lists so that it reduces in the kernel. -/
def lexLeB : List Char → List Char → Bool
  | [], _ => true
  | _ :: _, [] => false
  | x :: xs, y :: ys => if x = y then lexLeB xs ys else decide (x < y)

/-- Python `a <= b` on strings. -/
def strLeB (a b : String) : Bool :=
  lexLeB a.data b.data

/-- Ascending insertion into a sorted list of strings. -/
def sortedInsert (x : String) : List String → List String
  | [] => [x]
  | y :: ys => if strLeB x y then x :: y :: ys else y :: sortedInsert x ys

/-- Python `sorted(...)`: ascending lexicographic sort of the directory
listing (insertion sort; `os.listdir` never contains `.` or `..`). -/
def pySorted : List String → List String
  | [] => []
  | x :: xs => sortedInsert x (pySorted xs)

/-- `get_first_log` from pbs_loghandler.py:
`sorted(os.listdir(self.pbs_log_path))[1]` — the element at index `1` of
the sorted listing (`Option.none` models the `IndexError` Python raises when
the listing has fewer than two entries). -/
def get_first_log (listing : List String) : Option String :=
  (pySorted listing).get? 1

/-- C6 (code bug): on the two-file listing `["20190101", "20190102"]`,
`get_first_log` returns `"20190102"` — the second-smallest filename — while
its own docstring ("Find the earliest/oldest log available") and the spec
require the minimum, `"20190101"`, which is in the listing and is a lower
bound of it. -/
theorem get_first_log_not_earliest :
    get_first_log ["20190101", "20190102"] = some "20190102" ∧
    "20190102" ≠ "20190101" ∧
    "20190101" ∈ ["20190101", "20190102"] ∧
    (∀ f ∈ ["20190101", "20190102"], strLeB "20190101" f = true) ∧
    get_first_log ["20190101"] = Option.none := by
  refine ⟨by decide, by decide, by decide, ?_, by decide⟩
  intro f hf
  rcases List.mem_cons.mp hf with rfl | hf2
  · decide
  · rcases List.mem_cons.mp hf2 with rfl | hf3
    · decide
    · cases hf3

/-! ## `lastscan` and the `lastscan` branch of `str_to_date`
(reporting_database_connect.py lines 255-291, gestor.py lines 194-200) -/

/-- A row of the `pbslog` checkpoint table (`PbsLog` in utils.py): the
autoincrement key, the `start` and `end` timestamps, and the `filename`
date. Dates are modelled as integer day numbers; the `end` column is named
`finish` because `end` is a Lean keyword. -/
structure PbsLogRow : Type where
  idx : Nat
  start : Int
  finish : Int
  filename : Int
deriving DecidableEq, Repr

/-- `last_table_ordered_column` (orm_lib.py lines 305-315) for the query
`order_by(desc("filename")).first()`: the first row of the table in
descending `filename` order, i.e. a row carrying the maximal `filename`
(`None` on an empty table). -/
def last_table_ordered_column (table : List PbsLogRow) : Option PbsLogRow :=
  table.foldl (fun acc row =>
    match acc with
    | Option.none => some row
    | some m => if m.filename < row.filename then some row else some m) Option.none

/-- The result of `ReportingDBLib.lastscan`: either the `"firstlog"`
sentinel or the latest checkpointed filename. -/
inductive LastscanResult : Type where
  | firstlog : LastscanResult
  | date : Int → LastscanResult
deriving DecidableEq, Repr

/-- `lastscan()` from reporting_database_connect.py: query the checkpoint
row with the largest `filename`; on an empty table return the `"firstlog"`
sentinel, else the row's `filename`. -/
def lastscan (table : List PbsLogRow) : LastscanResult :=
  match last_table_ordered_column table with
  | Option.none => LastscanResult.firstlog
  | some res => LastscanResult.date res.filename

/-- The `'lastscan'` branch of `str_to_date` (gestor.py lines 194-200):
when `lastscan()` returns the sentinel, fall back to the first-log date;
else resolve to the checkpointed date plus one day. -/
def str_to_date_lastscan (table : List PbsLogRow) (first_log_date : Int) : Int :=
  match lastscan table with
  | LastscanResult.firstlog => first_log_date
  | LastscanResult.date x => x + 1

theorem last_table_foldl_aux (table : List PbsLogRow) :
    ∀ m : PbsLogRow,
      ∃ m', table.foldl (fun acc row =>
          match acc with
          | Option.none => some row
          | some m => if m.filename < row.filename then some row else some m)
          (some m) = some m' ∧
        (m' = m ∨ m' ∈ table) ∧ m.filename ≤ m'.filename ∧
        ∀ row ∈ table, row.filename ≤ m'.filename := by
  induction table with
  | nil =>
    intro m
    exact ⟨m, rfl, Or.inl rfl, le_refl _, by intro row h; cases h⟩
  | cons row rest ih =>
    intro m
    rw [List.foldl_cons]
    by_cases h : m.filename < row.filename
    · obtain ⟨m', h1, h2, h3, h4⟩ := ih row
      refine ⟨m', by simpa [h] using h1, ?_, le_trans (le_of_lt h) h3, ?_⟩
      · rcases h2 with rfl | h2
        · exact Or.inr (List.mem_cons_self _ _)
        · exact Or.inr (List.mem_cons_of_mem _ h2)
      · intro q hq
        rcases List.mem_cons.mp hq with rfl | hq2
        · exact h3
        · exact h4 q hq2
    · obtain ⟨m', h1, h2, h3, h4⟩ := ih m
      refine ⟨m', by simpa [h] using h1, ?_, h3, ?_⟩
      · rcases h2 with rfl | h2
        · exact Or.inl rfl
        · exact Or.inr (List.mem_cons_of_mem _ h2)
      · intro q hq
        rcases List.mem_cons.mp hq with rfl | hq2
        · exact le_trans (not_lt.mp h) h3
        · exact h4 q hq2

theorem last_table_ordered_column_max (table : List PbsLogRow) (h : table ≠ []) :
    ∃ m, last_table_ordered_column table = some m ∧ m ∈ table ∧
      ∀ row ∈ table, row.filename ≤ m.filename := by
  match table, h with
  | row :: rest, _ =>
    obtain ⟨m', h1, h2, h3, h4⟩ := last_table_foldl_aux rest row
    refine ⟨m', ?_, ?_, ?_⟩
    · rw [last_table_ordered_column, List.foldl_cons]
      exact h1
    · rcases h2 with rfl | h2
      · exact List.mem_cons_self _ _
      · exact List.mem_cons_of_mem _ h2
    · intro q hq
      rcases List.mem_cons.mp hq with rfl | hq2
      · exact h3
      · exact h4 q hq2

/-- C7: `lastscan()` on the empty checkpoint table returns the `"firstlog"`
sentinel; and whenever the latest checkpoint has filename `X` (an upper
bound attained in the table), the resolved `'lastscan'` start date is
`X + 1` day, whatever the first-log fallback date is. -/
theorem lastscan_empty_and_next_day :
    lastscan [] = LastscanResult.firstlog ∧
    ∀ (table : List PbsLogRow) (fl X : Int), table ≠ [] →
      (∀ row ∈ table, row.filename ≤ X) → (∃ row ∈ table, row.filename = X) →
      str_to_date_lastscan table fl = X + 1 := by
  refine ⟨rfl, ?_⟩
  intro table fl X hne hub hex
  obtain ⟨m, h1, h2, h3⟩ := last_table_ordered_column_max table hne
  obtain ⟨row, hrow, hrowX⟩ := hex
  have hmX : m.filename = X :=
    le_antisymm (hub m h2) (hrowX ▸ h3 row hrow)
  simp [str_to_date_lastscan, lastscan, h1, hmX]

/-- Witness for C7 at a one-row checkpoint table with filename `5`. -/
theorem lastscan_empty_and_next_day_witness :
    str_to_date_lastscan [⟨1, 0, 0, 5⟩] 0 = 6 := by
  refine lastscan_empty_and_next_day.2 [⟨1, 0, 0, 5⟩] 0 5 (by decide) ?_ ?_
  · intro row hrow
    rcases List.mem_cons.mp hrow with rfl | h
    · decide
    · cases h
  · exact ⟨⟨1, 0, 0, 5⟩, List.mem_cons_self _ _, rfl⟩

/-! ## `date_range` and `parse_input` (gestor.py lines 172-183, 265-289) -/

/-- The two fields of a `PbsLogHandler` that `parse_input` inspects: the
log file's day and the `run` mode. Days are integer day numbers. -/
structure PbsLogHandlerM : Type where
  log_file_name : Int
  run : String
deriving DecidableEq, Repr

/-- `PbsLogHandler.__init__` called with an explicit (non-`"today"`) day, as
`parse_input` always does: `run` starts as `"manual"` and becomes `"none"`
when the day's log file does not exist. The filesystem is a parameter. -/
def mkPbsLogHandler (fileExists : Int → Bool) (day : Int) : PbsLogHandlerM :=
  { log_file_name := day, run := if fileExists day then "manual" else "none" }

/-- `date_range(start_date, end_date)` from gestor.py:
`start_date + i` for `i in range((end_date - start_date).days + 1)` —
the inclusive ascending range, empty when `end_date < start_date`. -/
def date_range (start_date end_date : Int) : List Int :=
  (List.range (end_date - start_date + 1).toNat).map (fun i : Nat => start_date + (i : Int))

/-- `parse_input` from gestor.py, after both dates are resolved: equal dates
yield the single handler (appended without checking its mode); otherwise the
dates are swapped if given in reverse and a handler is created for every day
of the inclusive range, keeping only those not in `"none"` mode. -/
def parse_input (fileExists : Int → Bool) (fromdate tilldate : Int) :
    List PbsLogHandlerM :=
  if fromdate = tilldate then [mkPbsLogHandler fileExists fromdate]
  else
    let swapped := if fromdate > tilldate then (tilldate, fromdate) else (fromdate, tilldate)
    (date_range swapped.1 swapped.2).foldl (fun acc idate =>
      let alog := mkPbsLogHandler fileExists idate
      if alog.run ≠ "none" then acc ++ [alog] else acc) []

/-- C8 counterexample: with dates `0 ≠ 1` and no log file existing,
`parse_input` yields no source at all, not `|D2 - D1| + 1 = 2` sources —
days whose handler comes up in `"none"` mode are skipped. -/
theorem parse_input_c8_counterexample :
    (0 : Int) ≠ 1 ∧
    (parse_input (fun _ => false) 0 1).length = 0 ∧
    ((1 : Int) - 0).natAbs + 1 = 2 := by
  refine ⟨by decide, ?_, by decide⟩
  rfl

theorem parse_input_foldl (fileExists : Int → Bool) (days : List Int) :
    ∀ acc : List PbsLogHandlerM,
      days.foldl (fun acc idate =>
        let alog := mkPbsLogHandler fileExists idate
        if alog.run ≠ "none" then acc ++ [alog] else acc) acc =
      acc ++ (days.filter (fun d => fileExists d)).map (mkPbsLogHandler fileExists) := by
  induction days with
  | nil => intro acc; simp
  | cons d rest ih =>
    intro acc
    rw [List.foldl_cons]
    cases hd : fileExists d with
    | true =>
      rw [show (if (mkPbsLogHandler fileExists d).run ≠ "none"
            then acc ++ [mkPbsLogHandler fileExists d] else acc) =
          acc ++ [mkPbsLogHandler fileExists d] from by
          simp [mkPbsLogHandler, hd]]
      rw [ih, List.filter_cons_of_pos hd, List.map_cons]
      simp
    | false =>
      rw [show (if (mkPbsLogHandler fileExists d).run ≠ "none"
            then acc ++ [mkPbsLogHandler fileExists d] else acc) = acc from by
          simp [mkPbsLogHandler, hd]]
      rw [ih, List.filter_cons_of_neg (by simp [hd])]

theorem date_range_length (a b : Int) :
    (date_range a b).length = (b - a + 1).toNat := by
  rw [date_range, List.length_map, List.length_range]

theorem max_sub_min_natAbs (d1 d2 : Int) :
    max d1 d2 - min d1 d2 = ((d2 - d1).natAbs : Int) := by
  rcases le_total d1 d2 with h | h
  · rw [max_eq_right h, min_eq_left h]
    omega
  · rw [max_eq_left h, min_eq_right h]
    omega

/-- C8 amended: when the two resolved dates are equal, `parse_input` yields
exactly one source (even for a missing file); when they differ, it yields
exactly the sources of the days of the inclusive range
`[min(D1,D2), max(D1,D2)]` whose log file exists, in ascending date order —
so when every day's file exists, `|D2 - D1| + 1` sources — and the result
does not depend on the order in which the two dates are given. -/
theorem parse_input_range (fileExists : Int → Bool) (d1 d2 : Int) :
    (d1 = d2 → parse_input fileExists d1 d2 = [mkPbsLogHandler fileExists d1]) ∧
    (d1 ≠ d2 → parse_input fileExists d1 d2 =
      ((date_range (min d1 d2) (max d1 d2)).filter (fun d => fileExists d)).map
        (mkPbsLogHandler fileExists)) ∧
    ((∀ d, min d1 d2 ≤ d → d ≤ max d1 d2 → fileExists d = true) → d1 ≠ d2 →
      (parse_input fileExists d1 d2).map PbsLogHandlerM.log_file_name =
        date_range (min d1 d2) (max d1 d2) ∧
      (parse_input fileExists d1 d2).length = (d2 - d1).natAbs + 1) ∧
    parse_input fileExists d1 d2 = parse_input fileExists d2 d1 := by
  have hswap : ∀ a b : Int, a ≠ b →
      parse_input fileExists a b =
        ((date_range (min a b) (max a b)).filter (fun d => fileExists d)).map
          (mkPbsLogHandler fileExists) := by
    intro a b hne
    rw [parse_input, if_neg hne]
    by_cases hgt : a > b
    · rw [show (if a > b then (b, a) else (a, b)) = (b, a) from if_pos hgt]
      rw [parse_input_foldl]
      rw [min_eq_right (le_of_lt hgt), max_eq_left (le_of_lt hgt)]
      rfl
    · rw [show (if a > b then (b, a) else (a, b)) = (a, b) from if_neg hgt]
      rw [parse_input_foldl]
      rw [min_eq_left (not_lt.mp hgt), max_eq_right (not_lt.mp hgt)]
      rfl
  have hfilter_all : (∀ d, min d1 d2 ≤ d → d ≤ max d1 d2 → fileExists d = true) →
      (date_range (min d1 d2) (max d1 d2)).filter (fun d => fileExists d) =
        date_range (min d1 d2) (max d1 d2) := by
    intro hall
    apply List.filter_eq_self.mpr
    intro d hd
    rcases List.mem_map.mp hd with ⟨i, hi, rfl⟩
    have hile : (i : Int) ≤ max d1 d2 - min d1 d2 := by
      have := List.mem_range.mp hi
      omega
    exact hall _ (by omega) (by omega)
  refine ⟨?_, fun hne => hswap d1 d2 hne, ?_, ?_⟩
  · intro heq
    rw [parse_input, if_pos heq]
  · intro hall hne
    rw [hswap d1 d2 hne, hfilter_all hall]
    constructor
    · rw [List.map_map]
      exact List.map_id'' (fun x => rfl) _
    · rw [List.length_map, date_range_length, max_sub_min_natAbs]
      omega
  · by_cases heq : d1 = d2
    · subst heq
      rfl
    · rw [hswap d1 d2 heq, hswap d2 d1 (fun h => heq h.symm)]
      rw [min_comm, max_comm]

/-- Witness for C8 amended at the range `[2, 0]` with every file present:
three sources, days `0, 1, 2` in ascending order. -/
theorem parse_input_range_witness :
    (parse_input (fun _ => true) 2 0).map PbsLogHandlerM.log_file_name =
      date_range (min 2 0) (max 2 0) ∧
    (parse_input (fun _ => true) 2 0).length = ((0 : Int) - 2).natAbs + 1 := by
  exact (parse_input_range (fun _ => true) 2 0).2.2.1
    (fun d _ _ => rfl) (by decide)

/-! ## The per-line loop of `main` (gestor.py lines 355-369) — claim C9 -/

/-- One iteration of the inner loop of `main`, with the sink's `write`
calls journalled as `(key, data)` pairs: a line on which `process_log_line`
raises `LogLineError` is logged and skipped (the `continue` — no write, no
abort), any other line is run through `logLineParser` and written with
`key="job_info"`. The `detect_log_switch` checkpoint bookkeeping preceding
this is independent of the line's content and not modelled here. -/
def mainStep (db : List (String × AttrMap)) (log_line : String) :
    List (String × AttrMap) :=
  match process_log_line log_line with
  | Except.error _ => db
  | Except.ok processed_log => db ++ [("job_info", logLineParser processed_log)]

/-- The inner loop of `main` over the lines of one log file. -/
def processLines (db : List (String × AttrMap)) (lines : List String) :
    List (String × AttrMap) :=
  lines.foldl mainStep db

/-- C9: a line on which `process_log_line` fails produces no database write
and leaves the write journal — hence all job-record state established by
prior lines — unchanged, and processing continues with the remaining lines
of the file: the run is not aborted. -/
theorem malformed_line_skipped (db : List (String × AttrMap)) (line : String)
    (rest : List String) (h : exceptOk (process_log_line line) = false) :
    mainStep db line = db ∧
    processLines db (line :: rest) = processLines db rest := by
  have hstep : mainStep db line = db := by
    cases he : process_log_line line with
    | ok t =>
      rw [he] at h
      cases h
    | error e => rw [mainStep, he]
  exact ⟨hstep, by rw [processLines, List.foldl_cons, hstep]; rfl⟩

/-- Witness for C9 at the three-field line `"a;b;c"`. -/
theorem malformed_line_skipped_witness :
    mainStep [] "a;b;c" = [] ∧
    processLines [] ["a;b;c"] = processLines [] [] :=
  malformed_line_skipped [] "a;b;c" [] (by decide)

end PbsGestor